import Mathlib

/-!
Verification of the `html2mdTables` repository (files `dify.py` and `main.py`).

The reachable implementation is `dify.py`: `replace_tables_in_place` scans an
HTML string for `<table>…</table>` regions (case-insensitively), converts each
region with `table_html_to_markdown` (an `html.parser.HTMLParser` subclass
collecting rows and cells, followed by rowspan/colspan grid expansion, header
flattening, and GFM rendering), and keeps all other text verbatim.
`main.py` is a near-duplicate of the same algorithm over BeautifulSoup.

Embedding conventions:
* Python strings are `List Char` (`Str`); Python `str.lower` is mapped
  `Char.toLower` (the inputs involved are ASCII).
* Python `int` attribute values are Lean `Int`.
* The one statement that can raise at run time (`self._cur_row.append(...)`
  in `TableParser.handle_endtag` with `_cur_row = None`) is modelled with
  `Except Unit`; every other modelled operation is total, as in the source.
* Loops whose counters are not structurally decreasing (the string scan and
  the carry-map drain) take an explicit fuel argument that is always supplied
  large enough; fuel-irrelevance lemmas below show the bound is sufficient.
-/

set_option maxRecDepth 4000

abbrev Str := List Char

/-- Lowercase a string character-wise, modelling Python `str.lower()` on the
ASCII fragment exercised by the repository. -/
def lowerL (s : Str) : Str := s.map Char.toLower

/-- Concatenate a list of strings, modelling `"".join(out_parts)`. -/
def catL (ls : List Str) : Str := ls.foldr (fun a b => a ++ b) []

/-- Index of the first occurrence of `nd` in `hay`, modelling Python
`str.find` (with `none` for `-1`). -/
def findIn : Str → Str → Option Nat
  | [], nd => if nd = [] then some 0 else none
  | c :: rest, nd =>
    if nd.isPrefixOf (c :: rest) then some 0 else (findIn rest nd).map (fun i => i + 1)

/-- Model of Python `hay.find(nd, pos)`: first occurrence at index `≥ pos`. -/
def findFrom (hay nd : Str) (pos : Nat) : Option Nat :=
  (findIn (hay.drop pos) nd).map (fun i => i + pos)

def tableOpenTok : Str := "<table".toList
def tableCloseTok : Str := "</table>".toList
def gtTok : Str := ">".toList

/-- One segment of the document produced by the table locator of
`replace_tables_in_place` (dify.py lines 29-67): either literal text copied
through, or a located `<table>…</table>` region to be converted. -/
inductive Seg where
  | plain (s : Str)
  | tbl (s : Str)
deriving DecidableEq

def segRaw : Seg → Str
  | Seg.plain s => s
  | Seg.tbl s => s

/-- The locator loop of `replace_tables_in_place` (dify.py lines 33-67),
emitting the exact parts that the Python loop appends to `out_parts`
(tagged by whether they are passed through or converted).  `fuel` bounds the
number of iterations; each iteration advances `pos` by at least 9, so the
fuel `html.length + 1` used in `segmentsOf` is never exhausted
(`segmentsFrom_fuel` below). -/
def segmentsFrom (html lower : Str) : Nat → Nat → List Seg
  | 0, pos => [Seg.plain (html.drop pos)]
  | fuel + 1, pos =>
    match findFrom lower tableOpenTok pos with
    | none => [Seg.plain (html.drop pos)]
    | some start =>
      match findFrom lower gtTok start with
      | none => [Seg.plain ((html.drop pos).take (start - pos)), Seg.plain (html.drop start)]
      | some gt =>
        match findFrom lower tableCloseTok (gt + 1) with
        | none => [Seg.plain ((html.drop pos).take (start - pos)), Seg.plain (html.drop start)]
        | some e =>
          Seg.plain ((html.drop pos).take (start - pos)) ::
            Seg.tbl ((html.drop start).take (e + 8 - start)) ::
            segmentsFrom html lower fuel (e + 8)

/-- The segmentation that `replace_tables_in_place html` computes. -/
def segmentsOf (html : Str) : List Seg :=
  segmentsFrom html (lowerL html) (html.length + 1) 0

/-- Python whitespace for `str.strip()` (ASCII part). -/
def isPySpace (c : Char) : Bool :=
  c == ' ' || c == '\t' || c == '\n' || c == '\r' || c == '\x0b' || c == '\x0c'

/-- Model of Python `str.strip()`. -/
def pyStripWS (s : Str) : Str :=
  ((s.dropWhile isPySpace).reverse.dropWhile isPySpace).reverse

/-- Model of Python `text.replace("\n", "<br>")`. -/
def pyReplaceNl (s : Str) : Str :=
  s.foldr (fun c acc => if c == '\n' then ("<br>".toList) ++ acc else c :: acc) []

def digitVal (c : Char) : Nat := c.toNat - '0'.toNat

/-- Digit tail of a Python integer literal: digits separated by optional
single underscores (as accepted by Python `int()`). -/
def digitsCore : Nat → Str → Option Nat
  | acc, [] => some acc
  | acc, '_' :: d :: rest =>
    if d.isDigit then digitsCore (acc * 10 + digitVal d) rest else none
  | _, ['_'] => none
  | acc, d :: rest =>
    if d.isDigit then digitsCore (acc * 10 + digitVal d) rest else none

def pyIntDigits (s : Str) : Option Nat :=
  match s with
  | d :: rest => if d.isDigit then digitsCore (digitVal d) rest else none
  | [] => none

/-- Model of Python `int(s)` on a string argument: surrounding whitespace,
optional sign, ASCII digits with single underscores between digits;
`none` models the `ValueError` swallowed by `handle_starttag`'s
`try/except`. -/
def pyInt (s : Str) : Option Int :=
  match pyStripWS s with
  | '+' :: r => (pyIntDigits r).map (fun n => (n : Int))
  | '-' :: r => (pyIntDigits r).map (fun n => -(n : Int))
  | t => (pyIntDigits t).map (fun n => (n : Int))

/-- Model of Python `int(v)` for an attribute value that may be `None`
(a bare attribute); `int(None)` raises `TypeError`, also swallowed. -/
def pyIntOpt (v : Option Str) : Option Int := v.bind pyInt

/-- Cell record built by `TableParser.handle_starttag` (dify.py line 103). -/
structure Cell where
  text : Str
  rowspan : Int
  colspan : Int
  is_header : Bool
deriving DecidableEq

/-- One iteration of the attribute loop in `handle_starttag`
(dify.py lines 104-115): a parseable `rowspan`/`colspan` value overwrites
the field, an unparseable one is ignored (`except: pass`). -/
def cellAttrStep (cell : Cell) (kv : Str × Option Str) : Cell :=
  let k := lowerL kv.1
  if k = ("rowspan".toList) then
    match pyIntOpt kv.2 with
    | some n => { cell with rowspan := n }
    | none => cell
  else if k = ("colspan".toList) then
    match pyIntOpt kv.2 with
    | some n => { cell with colspan := n }
    | none => cell
  else cell

/-- The cell value produced by `handle_starttag` for a `td`/`th` tag. -/
def startCell (t : Str) (attrs : List (Str × Option Str)) : Cell :=
  attrs.foldl cellAttrStep
    { text := [], rowspan := 1, colspan := 1, is_header := t == ("th".toList) }

/-- Events delivered by Python's `html.parser.HTMLParser` to the
`TableParser` handlers. -/
inductive HEvent where
  | start (tag : Str) (attrs : List (Str × Option Str))
  | close (tag : Str)
  | text (s : Str)
deriving DecidableEq

/-- Tag-name characters accepted by the tolerant tag scanner of
`html.parser` (anything up to whitespace, `/` or `>`). -/
def tolerantNameChar (c : Char) : Bool := !(isPySpace c) && c != '/' && c != '>'

/-- Modelled from the behaviour of the standard-library `html.parser`
attribute scanner (`attrfind_tolerant`) on the well-formed start tags that
occur in this development: attributes with optionally quoted values and bare
attributes.  Returns the attribute list and the text after the closing `>`;
`none` models an unterminated start tag, which `HTMLParser.feed` buffers
without delivering any event. -/
def parseAttrs : Nat → Str → List (Str × Option Str) → Option (List (Str × Option Str) × Str)
  | 0, _, _ => none
  | fuel + 1, s, acc =>
    let s1 := s.dropWhile (fun c => isPySpace c || c == '/')
    match s1 with
    | [] => none
    | '>' :: r => some (acc.reverse, r)
    | _ =>
      let nameStop : Char → Bool := fun c => !(isPySpace c) && c != '/' && c != '>' && c != '='
      let nm := s1.takeWhile nameStop
      let r1 := s1.dropWhile nameStop
      match r1.dropWhile isPySpace with
      | '=' :: r3 =>
        let r4 := r3.dropWhile isPySpace
        match r4 with
        | '"' :: r5 =>
          let v := r5.takeWhile (fun c => c != '"')
          match r5.dropWhile (fun c => c != '"') with
          | '"' :: r7 => parseAttrs fuel r7 ((lowerL nm, some v) :: acc)
          | _ => none
        | '\'' :: r5 =>
          let v := r5.takeWhile (fun c => c != '\'')
          match r5.dropWhile (fun c => c != '\'') with
          | '\'' :: r7 => parseAttrs fuel r7 ((lowerL nm, some v) :: acc)
          | _ => none
        | _ =>
          let v := r4.takeWhile (fun c => !(isPySpace c) && c != '>')
          let r5 := r4.dropWhile (fun c => !(isPySpace c) && c != '>')
          parseAttrs fuel r5 ((lowerL nm, some v) :: acc)
      | _ => parseAttrs fuel r1 ((lowerL nm, none) :: acc)

/-- Modelled from the behaviour of the standard-library
`html.parser.HTMLParser` tokenizer on the HTML fragment language this
repository handles: named start tags with attributes, end tags, and
character data.  Comments, processing instructions, entity references and
self-closing tags are outside the modelled subset (none occur in the inputs
reasoned about here).  Tag and attribute names are delivered lowercased, as
`HTMLParser` does.  Each iteration consumes at least one character, so the
fuel `s.length + 1` used by `tokenizeAll` is never exhausted. -/
def tokenizeSteps : Nat → Str → List HEvent
  | 0, _ => []
  | _, [] => []
  | fuel + 1, '<' :: '/' :: r =>
    let nm := r.takeWhile tolerantNameChar
    match r.dropWhile (fun c => c != '>') with
    | '>' :: r2 => HEvent.close (lowerL nm) :: tokenizeSteps fuel r2
    | _ => []
  | fuel + 1, '<' :: c :: r =>
    if c.isAlpha then
      let nm := (c :: r).takeWhile tolerantNameChar
      let r1 := (c :: r).dropWhile tolerantNameChar
      match parseAttrs (r1.length + 1) r1 [] with
      | some (attrs, rest) => HEvent.start (lowerL nm) attrs :: tokenizeSteps fuel rest
      | none => []
    else
      HEvent.text (['<']) :: tokenizeSteps fuel (c :: r)
  | _ + 1, ['<'] => []
  | fuel + 1, s =>
    HEvent.text (s.takeWhile (fun c => c != '<')) ::
      tokenizeSteps fuel (s.dropWhile (fun c => c != '<'))

def tokenizeAll (s : Str) : List HEvent := tokenizeSteps (s.length + 1) s

/-- Mutable fields of `TableParser` (dify.py lines 85-92). -/
structure PState where
  tables : List (List (List Cell))
  curTable : Option (List (List Cell))
  curRow : Option (List Cell)
  curCell : Option Cell
  cellText : Str
deriving DecidableEq

def initPS : PState := { tables := [], curTable := none, curRow := none, curCell := none, cellText := [] }

/-- The three handlers of `TableParser` (dify.py lines 94-136) applied to one
event.  The single fallible spot is faithfully kept: on `</td>`/`</th>` with
a pending cell, the code runs `self._cur_row.append(...)` without checking
`_cur_row`, which raises `AttributeError` when a `</tr>` already cleared the
row (modelled as `Except.error ()`). -/
def applyEvent (st : PState) : HEvent → Except Unit PState
  | HEvent.start tag attrs =>
    let t := lowerL tag
    if t = ("table".toList) then Except.ok { st with curTable := some [] }
    else if t = ("tr".toList) then
      Except.ok (if st.curTable.isSome then { st with curRow := some [] } else st)
    else if t = ("td".toList) ∨ t = ("th".toList) then
      if st.curRow.isSome then
        Except.ok { st with curCell := some (startCell t attrs), cellText := [] }
      else Except.ok st
    else Except.ok st
  | HEvent.close tag =>
    let t := lowerL tag
    if t = ("td".toList) ∨ t = ("th".toList) then
      match st.curCell with
      | some cell =>
        match st.curRow with
        | some row =>
          Except.ok { st with
            curRow := some (row ++ [{ cell with text := pyStripWS st.cellText }]),
            curCell := none }
        | none => Except.error ()
      | none => Except.ok st
    else if t = ("tr".toList) then
      match st.curTable, st.curRow with
      | some tb, some r => Except.ok { st with curTable := some (tb ++ [r]), curRow := none }
      | _, _ => Except.ok { st with curRow := none }
    else if t = ("table".toList) then
      match st.curTable with
      | some tb => Except.ok { st with tables := st.tables ++ [tb], curTable := none }
      | none => Except.ok st
    else Except.ok st
  | HEvent.text s =>
    Except.ok (if st.curCell.isSome then { st with cellText := st.cellText ++ s } else st)

/-- Feeding a table region to a fresh `TableParser` and reading its
`tables` field. -/
def parseTables (evs : List HEvent) : Except Unit (List (List (List Cell))) :=
  (evs.foldlM applyEvent initPS).map (fun st => st.tables)

/-- The `carry` dict of `_table_to_markdown` (dify.py line 148):
`(row, col) → text` reservations made by rowspans.  Insertion overwrites any
existing entry for the key, as Python dict assignment does. -/
abbrev Carry := List ((Int × Int) × Str)

def carryFind (d : Carry) (k : Int × Int) : Option Str :=
  (d.find? (fun e => e.1 == k)).map (fun e => e.2)

def carryErase (d : Carry) (k : Int × Int) : Carry :=
  d.filter (fun e => !(e.1 == k))

def carryInsert (d : Carry) (k : Int × Int) (v : Str) : Carry :=
  carryErase d k ++ [(k, v)]

/-- The `while (r_idx, c_idx) in carry` loops (dify.py lines 156-158 and
176-178): pop consecutive reserved positions into the row.  Each iteration
removes one entry, so calling with fuel `d.length + 1` never exhausts it
(`drain_fuel` below). -/
def drain : Nat → Carry → Int → Int → List Str → Carry × Int × List Str
  | 0, d, _, c, vals => (d, c, vals)
  | fuel + 1, d, r, c, vals =>
    match carryFind d (r, c) with
    | none => (d, c, vals)
    | some v => drain fuel (carryErase d (r, c)) r (c + 1) (vals ++ [v])

/-- Python `range(a, b)` over `Int`. -/
def intRange (a b : Int) : List Int :=
  (List.range (b - a).toNat).map (fun i => a + (i : Int))

/-- The rowspan reservation loops (dify.py lines 168-172): for every later
row of the span, the leftmost column carries the text and the others carry
the empty string. -/
def reserveCell (d : Carry) (r left : Int) (text : Str) (rs cs : Int) : Carry :=
  (intRange 1 rs).foldl (fun d1 dr =>
    (intRange 0 cs).foldl (fun d2 dc =>
      carryInsert d2 (r + dr, left + dc) (if dc == 0 then text else [])) d1) d

/-- Body of the `for cell in row` loop (dify.py lines 160-178). -/
def cellStep (r : Int) (st : List Str × Int × Carry) (cell : Cell) : List Str × Int × Carry :=
  let (vals, c, d) := st
  let text := pyReplaceNl cell.text
  let rs := cell.rowspan
  let cs := cell.colspan
  let vals1 := (vals ++ [text]) ++ List.replicate (cs - 1).toNat []
  let d1 := if rs > 1 then reserveCell d r ((vals1.length : Int) - cs) text rs cs else d
  let c1 := c + cs
  let (d2, c2, vals2) := drain (d1.length + 1) d1 r c1 vals1
  (vals2, c2, d2)

/-- Expansion of one `<tr>` into grid values (dify.py lines 151-178). -/
def expandRow (d : Carry) (r : Int) (row : List Cell) : List Str × Carry :=
  let (d1, c, vals) := drain (d.length + 1) d r 0 []
  let (vals1, _, d2) := row.foldl (cellStep r) (vals, c, d1)
  (vals1, d2)

/-- The `for r_idx, row in enumerate(table)` loop (dify.py lines 151-181),
producing the unpadded grid rows in order. -/
def buildRows (d : Carry) (r : Nat) : List (List Cell) → List (List Str)
  | [] => []
  | row :: rest =>
    let (vals, d1) := expandRow d (r : Int) row
    vals :: buildRows d1 (r + 1) rest

/-- Running maximum of row widths (`max_cols`, dify.py line 180). -/
def maxColsOf (rows : List (List Str)) : Nat :=
  rows.foldl (fun m r => Nat.max m r.length) 0

def buildGridCore (table : List (List Cell)) : List (List Str) × Nat :=
  let rows := buildRows [] 0 table
  (rows, maxColsOf rows)

/-- Right-padding of one row to `max_cols` (dify.py lines 184-185). -/
def padRow (m : Nat) (row : List Str) : List Str :=
  row ++ List.replicate (m - row.length) []

/-- The grid expander of `_table_to_markdown` (dify.py lines 146-185):
rowspan/colspan expansion followed by padding every row to `max_cols`. -/
def buildGrid (table : List (List Cell)) : List (List Str) × Nat :=
  let (rows, m) := buildGridCore table
  (rows.map (padRow m), m)

/-- Count of leading header layers (dify.py lines 188-193): leading rows
containing at least one `<th>` cell. -/
def countHeaderLayers : List (List Cell) → Nat
  | [] => 0
  | row :: rest => if row.any (fun c => c.is_header) then countHeaderLayers rest + 1 else 0

/-- Left propagation of the last non-blank (stripped) header text across a
layer (dify.py lines 201-206). -/
def propagate (current : Str) : List Str → List Str
  | [] => []
  | x :: xs =>
    let t := pyStripWS x
    let cur := if t = [] then current else t
    cur :: propagate cur xs

/-- Per-column body of the header-merging loop (dify.py lines 208-215):
skip a blank propagated value, skip a value equal to the column's previous
segment (the rowspan case), otherwise append with `" > "` and remember the
segment.  The Python loop reads and writes only index `c` of `headers`,
`prev_seg` and `propagated` in its body, so the layer update is the
column-wise map `layerStep` below. -/
def joinStep (hp : Str × Option Str) (seg : Str) : Str × Option Str :=
  if seg = [] then hp
  else if hp.2 = some seg then hp
  else ((if hp.1 = [] then seg else (hp.1 ++ (" > ".toList)) ++ seg), some seg)

def dCol : Str × Option Str := ([], none)

/-- One header layer applied to the per-column state (dify.py lines 199-215). -/
def layerStep (st : List (Str × Option Str)) (layer : List Str) : List (Str × Option Str) :=
  List.zipWith joinStep st (propagate [] layer)

def colName (n : Nat) : Str := ("col_".toList) ++ (Nat.repr n).toList

/-- The header flattener (dify.py lines 196-220): fold the leading layers
over the per-column states, then synthesize `col_<i>` for unnamed columns. -/
def flattenHeaders (grid : List (List Str)) (layersCount maxCols : Nat) : List Str :=
  let st := (grid.take layersCount).foldl layerStep (List.replicate maxCols dCol)
  st.enum.map (fun p => if p.2.1 = [] then colName (p.1 + 1) else p.2.1)

/-- One Markdown table line (dify.py lines 226-230). -/
def mdRow (cells : List Str) : Str :=
  ("| ".toList) ++ (List.intercalate (" | ".toList) cells) ++ (" |".toList)

/-- `_table_to_markdown` (dify.py lines 140-231). -/
def tableToMarkdown (table : List (List Cell)) : Str :=
  let (grid, m) := buildGrid table
  let hl := countHeaderLayers table
  let headers := flattenHeaders grid hl m
  let body := grid.drop hl
  List.intercalate ("\n".toList)
    ([mdRow headers, mdRow (List.replicate m (":---".toList))] ++
      body.map (fun row => mdRow (row.take m)))

/-- `table_html_to_markdown` (dify.py lines 71-81): parse the region; if the
parser recorded no table, return the region unchanged; otherwise convert the
first recorded table. -/
def tableHtmlToMarkdown (s : Str) : Except Unit Str :=
  match parseTables (tokenizeAll s) with
  | Except.error e => Except.error e
  | Except.ok [] => Except.ok s
  | Except.ok (t :: _) => Except.ok (tableToMarkdown t)

/-- Output of one locator segment: plain text is copied, a table region is
converted. -/
def segOutE : Seg → Except Unit Str
  | Seg.plain s => Except.ok s
  | Seg.tbl s => tableHtmlToMarkdown s

/-- `replace_tables_in_place` (dify.py lines 21-67): empty (or `None`,
which is falsy like the empty string) input yields the empty string;
otherwise the joined per-segment outputs, with the first parser exception
propagating, exactly as the Python loop raises out of the call. -/
def replace_tables_in_place (html : Str) : Except Unit Str :=
  if html = [] then Except.ok []
  else Except.map catL ((segmentsOf html).mapM segOutE)

/-! ### Helper lemmas about substring search -/

theorem catL_nil : catL [] = [] := rfl

theorem catL_cons (a : Str) (l : List Str) : catL (a :: l) = a ++ catL l := rfl

theorem isPrefixOf_ex {nd l : Str} (h : nd.isPrefixOf l = true) : ∃ t, l = nd ++ t := by
  rcases List.isPrefixOf_iff_prefix.mp h with ⟨t, ht⟩
  exact ⟨t, ht.symm⟩

theorem isPrefixOf_length {nd l : Str} (h : nd.isPrefixOf l = true) : nd.length ≤ l.length :=
  (List.isPrefixOf_iff_prefix.mp h).length_le

theorem isPrefixOf_append_self (nd t : Str) : nd.isPrefixOf (nd ++ t) = true :=
  List.isPrefixOf_iff_prefix.mpr ⟨t, rfl⟩

theorem isPrefixOf_take {nd l : Str} {n : Nat} (h : nd.isPrefixOf l = true)
    (hn : nd.length ≤ n) : nd.isPrefixOf (l.take n) = true := by
  rcases isPrefixOf_ex h with ⟨t, rfl⟩
  rw [List.take_append_eq_append_take, List.take_of_length_le hn]
  exact isPrefixOf_append_self _ _

theorem findIn_prefix : ∀ {hay nd : Str} {i : Nat},
    findIn hay nd = some i → nd.isPrefixOf (hay.drop i) = true := by
  intro hay
  induction hay with
  | nil =>
    intro nd i h
    simp only [findIn] at h
    split at h
    · rename_i hnd
      cases h
      subst hnd
      rfl
    · cases h
  | cons c rest ih =>
    intro nd i h
    simp only [findIn] at h
    split at h
    · rename_i hpre
      cases h
      simpa using hpre
    · rcases Option.map_eq_some'.mp h with ⟨j, hj, rfl⟩
      simpa using ih hj

theorem findIn_none : ∀ {hay nd : Str},
    findIn hay nd = none → ∀ i, nd.isPrefixOf (hay.drop i) = false := by
  intro hay
  induction hay with
  | nil =>
    intro nd h i
    simp only [findIn] at h
    split at h
    · cases h
    · rename_i hnd
      rw [List.drop_nil]
      cases nd with
      | nil => exact absurd rfl hnd
      | cons a as => rfl
  | cons c rest ih =>
    intro nd h i
    simp only [findIn] at h
    split at h
    · cases h
    · rename_i hpre
      have hrest : findIn rest nd = none := by
        cases hfi : findIn rest nd with
        | none => rfl
        | some j => rw [hfi] at h; cases h
      cases i with
      | zero =>
        rw [List.drop_zero]
        exact Bool.not_eq_true _ ▸ (by simpa using hpre)
      | succ i' =>
        simpa using ih hrest i'

theorem findFrom_some {hay nd : Str} {pos i : Nat} (h : findFrom hay nd pos = some i) :
    pos ≤ i ∧ nd.isPrefixOf (hay.drop i) = true := by
  rcases Option.map_eq_some'.mp h with ⟨j, hj, rfl⟩
  constructor
  · omega
  · have hx := findIn_prefix hj
    rw [List.drop_drop] at hx
    rw [Nat.add_comm j pos]
    exact hx

theorem findFrom_end_le {hay nd : Str} {pos i : Nat} (h : findFrom hay nd pos = some i)
    (hnd : nd ≠ []) : i + nd.length ≤ hay.length := by
  have hpre := (findFrom_some h).2
  have hlen := isPrefixOf_length hpre
  rw [List.length_drop] at hlen
  have hpos : 0 < nd.length := List.length_pos.mpr hnd
  omega

/-! ### The locator decomposes the document exactly -/

theorem segsRaw_eq (html lower : Str) :
    ∀ (fuel pos : Nat), catL ((segmentsFrom html lower fuel pos).map segRaw) = html.drop pos := by
  intro fuel
  induction fuel with
  | zero =>
    intro pos
    simp [segmentsFrom, segRaw, catL_cons, catL_nil]
  | succ fuel ih =>
    intro pos
    rw [segmentsFrom]
    cases h1 : findFrom lower tableOpenTok pos with
    | none => simp [segRaw, catL_cons, catL_nil]
    | some start =>
      have hps : pos ≤ start := (findFrom_some h1).1
      have hdrop : List.drop (start - pos) (html.drop pos) = html.drop start := by
        rw [List.drop_drop]
        congr 1
        omega
      cases h2 : findFrom lower gtTok start with
      | none =>
        simp only [h2, List.map_cons, List.map_nil, segRaw, catL_cons, catL_nil, List.append_nil]
        rw [← hdrop, List.take_append_drop]
      | some gt =>
        have hsg : start ≤ gt := (findFrom_some h2).1
        cases h3 : findFrom lower tableCloseTok (gt + 1) with
        | none =>
          simp only [h2, h3, List.map_cons, List.map_nil, segRaw, catL_cons, catL_nil,
            List.append_nil]
          rw [← hdrop, List.take_append_drop]
        | some e =>
          have hge : gt + 1 ≤ e := (findFrom_some h3).1
          simp only [h2, h3, List.map_cons, segRaw, catL_cons]
          rw [ih (e + 8)]
          have hdrop2 : List.drop (e + 8 - start) (html.drop start) = html.drop (e + 8) := by
            rw [List.drop_drop]
            congr 1
            omega
          rw [← hdrop2, List.take_append_drop, ← hdrop, List.take_append_drop]


/-! ### Every table segment looks like a `<table>…</table>` region -/

theorem tblSeg_shape_aux (html : Str) {pos start gt e : Nat}
    (h1 : findFrom (lowerL html) tableOpenTok pos = some start)
    (h2 : findFrom (lowerL html) gtTok start = some gt)
    (h3 : findFrom (lowerL html) tableCloseTok (gt + 1) = some e) :
    tableOpenTok.isPrefixOf (lowerL ((html.drop start).take (e + 8 - start))) = true ∧
      tableCloseTok.isSuffixOf (lowerL ((html.drop start).take (e + 8 - start))) = true := by
  have hps : pos ≤ start := (findFrom_some h1).1
  have hsg : start ≤ gt := (findFrom_some h2).1
  have hge : gt + 1 ≤ e := (findFrom_some h3).1
  have hpre1 := (findFrom_some h1).2
  have hpre3 := (findFrom_some h3).2
  have h0 := findFrom_end_le h3 (by decide)
  have hlen8 : tableCloseTok.length = 8 := by decide
  have hlenL : (lowerL html).length = html.length := by simp [lowerL]
  have hebound : e + 8 ≤ html.length := by omega
  have hmap : lowerL ((html.drop start).take (e + 8 - start)) =
      ((lowerL html).drop start).take (e + 8 - start) := by
    simp [lowerL, List.map_take, List.map_drop]
  constructor
  · rw [hmap]
    apply isPrefixOf_take hpre1
    have h6 : tableOpenTok.length = 6 := by decide
    omega
  · rw [hmap]
    rcases isPrefixOf_ex hpre3 with ⟨t0, ht0⟩
    have hsplit : (lowerL html).drop start =
        ((lowerL html).drop start).take (e - start) ++ (lowerL html).drop e := by
      conv_lhs => rw [← List.take_append_drop (e - start) ((lowerL html).drop start)]
      rw [List.drop_drop]
      congr 2
      omega
    have hAlen : (((lowerL html).drop start).take (e - start)).length = e - start := by
      rw [List.length_take, List.length_drop, hlenL]
      omega
    have hA8 : e + 8 - start - (((lowerL html).drop start).take (e - start)).length = 8 := by
      rw [hAlen]
      omega
    have hTA : List.take (e + 8 - start) (((lowerL html).drop start).take (e - start)) =
        ((lowerL html).drop start).take (e - start) :=
      List.take_of_length_le (by rw [hAlen]; omega)
    rw [List.isSuffixOf_iff_suffix]
    refine ⟨((lowerL html).drop start).take (e - start), ?_⟩
    conv_rhs => rw [hsplit, ht0]
    rw [List.take_append_eq_append_take, hA8,
      List.take_left' (show tableCloseTok.length = 8 from by decide), hTA]

theorem segsTbl_shape (html : Str) :
    ∀ (fuel pos : Nat) (s : Str), Seg.tbl s ∈ segmentsFrom html (lowerL html) fuel pos →
      tableOpenTok.isPrefixOf (lowerL s) = true ∧ tableCloseTok.isSuffixOf (lowerL s) = true := by
  intro fuel
  induction fuel with
  | zero =>
    intro pos s hs
    simp [segmentsFrom] at hs
  | succ fuel ih =>
    intro pos s hs
    rw [segmentsFrom] at hs
    cases h1 : findFrom (lowerL html) tableOpenTok pos with
    | none => simp [h1] at hs
    | some start =>
      cases h2 : findFrom (lowerL html) gtTok start with
      | none => simp [h1, h2] at hs
      | some gt =>
        cases h3 : findFrom (lowerL html) tableCloseTok (gt + 1) with
        | none => simp [h1, h2, h3] at hs
        | some e =>
          simp only [h1, h2, h3, List.mem_cons] at hs
          rcases hs with h | h | h
          · cases h
          · cases h
            exact tblSeg_shape_aux html h1 h2 h3
          · exact ih (e + 8) s h

/-! ### The fuel used by `segmentsOf` is sufficient -/

theorem segmentsFrom_fuel (html : Str) :
    ∀ (fuel fuel' pos : Nat), html.length + 1 ≤ fuel + pos → html.length + 1 ≤ fuel' + pos →
      segmentsFrom html (lowerL html) fuel pos = segmentsFrom html (lowerL html) fuel' pos := by
  intro fuel
  induction fuel with
  | zero =>
    intro fuel' pos h h'
    have hpos : html.length < pos := by omega
    cases fuel' with
    | zero => rfl
    | succ f =>
      have hnil : (lowerL html).drop pos = [] := by
        apply List.drop_eq_nil_of_le
        simp only [lowerL, List.length_map]
        omega
      have hnone : findFrom (lowerL html) tableOpenTok pos = none := by
        simp [findFrom, hnil, findIn, tableOpenTok]
      simp [segmentsFrom, hnone]
  | succ fuel ih =>
    intro fuel' pos h h'
    cases fuel' with
    | zero =>
      have hpos : html.length < pos := by omega
      have hnil : (lowerL html).drop pos = [] := by
        apply List.drop_eq_nil_of_le
        simp only [lowerL, List.length_map]
        omega
      have hnone : findFrom (lowerL html) tableOpenTok pos = none := by
        simp [findFrom, hnil, findIn, tableOpenTok]
      simp [segmentsFrom, hnone]
    | succ f =>
      rw [segmentsFrom, segmentsFrom]
      cases h1 : findFrom (lowerL html) tableOpenTok pos with
      | none => simp only [h1]
      | some start =>
        have hps : pos ≤ start := (findFrom_some h1).1
        cases h2 : findFrom (lowerL html) gtTok start with
        | none => simp only [h1, h2]
        | some gt =>
          have hsg : start ≤ gt := (findFrom_some h2).1
          cases h3 : findFrom (lowerL html) tableCloseTok (gt + 1) with
          | none => simp only [h1, h2, h3]
          | some e =>
            have hge : gt + 1 ≤ e := (findFrom_some h3).1
            simp only [h1, h2, h3]
            rw [ih f (e + 8) (by omega) (by omega)]

/-- When the opening tag has no `>` (dify.py lines 44-48), or the table has
no `</table>` (lines 52-56), the rest of the document from the table start
is emitted as a single plain segment: the remainder is passed through
unconverted. -/
theorem segmentsFrom_broken (html lower : Str) (fuel pos start : Nat)
    (h1 : findFrom lower tableOpenTok pos = some start)
    (h2 : findFrom lower gtTok start = none ∨
      ∃ gt, findFrom lower gtTok start = some gt ∧
        findFrom lower tableCloseTok (gt + 1) = none) :
    segmentsFrom html lower (fuel + 1) pos =
      [Seg.plain ((html.drop pos).take (start - pos)), Seg.plain (html.drop start)] := by
  rcases h2 with h2 | ⟨gt, h2, h3⟩
  · simp [segmentsFrom, h1, h2]
  · simp [segmentsFrom, h1, h2, h3]

/-! ### The carry-map drain always gets enough fuel -/

theorem carryErase_length_lt {d : Carry} {k : Int × Int} {v : Str}
    (h : carryFind d k = some v) : (carryErase d k).length < d.length := by
  rcases Option.map_eq_some'.mp h with ⟨ent, hent, _⟩
  apply List.length_filter_lt_length_iff_exists.mpr
  refine ⟨ent, List.mem_of_find?_eq_some hent, ?_⟩
  have hp := List.find?_some hent
  simp [hp]

theorem drain_fuel : ∀ (f f' : Nat) (d : Carry) (r c : Int) (vals : List Str),
    d.length < f → d.length < f' → drain f d r c vals = drain f' d r c vals := by
  intro f
  induction f with
  | zero =>
    intro f' d r c vals h
    omega
  | succ f ih =>
    intro f' d r c vals h h'
    cases f' with
    | zero => omega
    | succ f2 =>
      rw [drain, drain]
      cases hf : carryFind d (r, c) with
      | none => rfl
      | some v =>
        have hlt := carryErase_length_lt hf
        exact ih f2 _ r (c + 1) (vals ++ [v]) (by omega) (by omega)

/-! ### Rectangularity of the expanded grid -/

theorem foldlMax_init_le (rows : List (List Str)) :
    ∀ init : Nat, init ≤ rows.foldl (fun m r => Nat.max m r.length) init := by
  induction rows with
  | nil => intro init; simp
  | cons hd tl ih =>
    intro init
    calc init ≤ Nat.max init hd.length := Nat.le_max_left _ _
    _ ≤ tl.foldl (fun m r => Nat.max m r.length) (Nat.max init hd.length) := ih _

theorem mem_le_foldlMax (rows : List (List Str)) :
    ∀ (init : Nat) (v : List Str), v ∈ rows →
      v.length ≤ rows.foldl (fun m r => Nat.max m r.length) init := by
  induction rows with
  | nil => intro init v hv; cases hv
  | cons hd tl ih =>
    intro init v hv
    rcases List.mem_cons.mp hv with rfl | hv
    · calc v.length ≤ Nat.max init v.length := Nat.le_max_right _ _
      _ ≤ tl.foldl (fun m r => Nat.max m r.length) (Nat.max init v.length) :=
        foldlMax_init_le tl _
    · exact ih _ v hv

theorem le_maxColsOf {rows : List (List Str)} {v : List Str} (h : v ∈ rows) :
    v.length ≤ maxColsOf rows :=
  mem_le_foldlMax rows 0 v h

theorem padRow_length {m : Nat} {row : List Str} (h : row.length ≤ m) :
    (padRow m row).length = m := by
  simp [padRow]
  omega

/-! ### Column-wise description of the header flattener -/

theorem propagate_length : ∀ (cur : Str) (l : List Str), (propagate cur l).length = l.length := by
  intro cur l
  induction l generalizing cur with
  | nil => rfl
  | cons x xs ih => simp [propagate, ih]

theorem getD_zipWith {α β γ : Type} (f : α → β → γ) (a : List α) (b : List β) (c : Nat)
    (da : α) (db : β) (dg : γ) (hc : c < a.length) (hab : a.length ≤ b.length) :
    (List.zipWith f a b).getD c dg = f (a.getD c da) (b.getD c db) := by
  have hcz : c < (List.zipWith f a b).length := by
    rw [List.length_zipWith]
    omega
  rw [List.getD_eq_getElem _ _ hcz, List.getD_eq_getElem _ _ hc,
    List.getD_eq_getElem _ _ (lt_of_lt_of_le hc hab), List.getElem_zipWith]

theorem flatten_pointwise :
    ∀ (layers : List (List Str)) (st : List (Str × Option Str)) (c : Nat),
      c < st.length → (∀ l ∈ layers, st.length ≤ l.length) →
      (layers.foldl layerStep st).getD c dCol =
        layers.foldl (fun a l => joinStep a ((propagate [] l).getD c [])) (st.getD c dCol) := by
  intro layers
  induction layers with
  | nil => intro st c _ _; rfl
  | cons l rest ih =>
    intro st c hc hlen
    have hl : st.length ≤ l.length := hlen l (List.mem_cons_self _ _)
    have hpl : st.length ≤ (propagate [] l).length := by
      rw [propagate_length]
      exact hl
    have hstep_len : (layerStep st l).length = st.length := by
      simp only [layerStep, List.length_zipWith, propagate_length]
      omega
    simp only [List.foldl_cons]
    rw [ih (layerStep st l) c (by omega) (fun l' hl' => by
      rw [hstep_len]; exact hlen l' (List.mem_cons_of_mem _ hl'))]
    congr 1
    exact getD_zipWith joinStep st (propagate [] l) c dCol [] dCol hc hpl

theorem joinStep_blank (hp : Str × Option Str) : joinStep hp [] = hp := by
  simp [joinStep]

theorem joinStep_dup {hp : Str × Option Str} {s : Str} (h : hp.2 = some s) :
    joinStep hp s = hp := by
  simp [joinStep, h]

theorem joinStep_snd {hp : Str × Option Str} {s : Str} (hs : s ≠ []) :
    (joinStep hp s).2 = some s := by
  unfold joinStep
  rw [if_neg hs]
  split
  · rename_i h
    exact h
  · rfl

theorem foldl_joinStep_absorb {s : Str} :
    ∀ (bs : List Str) (st : Str × Option Str), st.2 = some s → (∀ b ∈ bs, b = []) →
      (bs ++ [s]).foldl joinStep st = st := by
  intro bs
  induction bs with
  | nil =>
    intro st hst _
    simpa using joinStep_dup hst
  | cons b rest ih =>
    intro st hst hbs
    have hb : b = [] := hbs b (List.mem_cons_self _ _)
    subst hb
    simp only [List.cons_append, List.foldl_cons, joinStep_blank]
    exact ih st hst (fun b' hb' => hbs b' (List.mem_cons_of_mem _ hb'))

/-! ### Small equations for the attribute fold -/

theorem cellAttrStep_rowspan_eq (cell : Cell) (v : Option Str) :
    cellAttrStep cell (("rowspan".toList), v) =
      match pyIntOpt v with
      | some n => { cell with rowspan := n }
      | none => cell := rfl

theorem cellAttrStep_colspan_eq (cell : Cell) (v : Option Str) :
    cellAttrStep cell (("colspan".toList), v) =
      match pyIntOpt v with
      | some n => { cell with colspan := n }
      | none => cell := rfl

/-! ### Claims -/

/-- C1, counterexample: the claim promises that `convert` returns, for every
input, the input with table regions replaced and all other bytes preserved;
but on `"<table><tr><td>x</tr></td></table>"` the conversion raises an
`AttributeError` (the unguarded `self._cur_row.append` in `handle_endtag`
runs with `_cur_row = None` because `</tr>` arrives before `</td>`), so
nothing is returned at all. -/
theorem c1_crash :
    replace_tables_in_place ("<table><tr><td>x</tr></td></table>".toList) =
      Except.error () := by rfl

/-- C1 (amended): the locator decomposes every input into plain and table
segments whose concatenation restores the input byte-for-byte (so every byte
outside the located table regions is preserved in content, order and
position); every table segment begins with `<table` and ends with
`</table>` case-insensitively; plain segments are emitted verbatim; and
`convert` is exactly the segment-wise conversion, returning the joined
outputs when every located table converts and propagating the
`AttributeError` otherwise. -/
theorem c1_frame (html : Str) :
    catL ((segmentsOf html).map segRaw) = html
    ∧ (∀ s, Seg.tbl s ∈ segmentsOf html →
        tableOpenTok.isPrefixOf (lowerL s) = true ∧ tableCloseTok.isSuffixOf (lowerL s) = true)
    ∧ (∀ p, segOutE (Seg.plain p) = Except.ok p)
    ∧ replace_tables_in_place html = Except.map catL ((segmentsOf html).mapM segOutE) := by
  refine ⟨?_, ?_, ?_, ?_⟩
  · have h := segsRaw_eq html (lowerL html) (html.length + 1) 0
    simpa [segmentsOf] using h
  · intro s hs
    exact segsTbl_shape html (html.length + 1) 0 s hs
  · intro p
    rfl
  · by_cases h : html = []
    · subst h
      rfl
    · simp [replace_tables_in_place, h]

/-- C1 witness: a concrete table segment produced by the locator, with its
`<table`/`</table>` shape established through `c1_frame`. -/
theorem c1_frame_witness :
    Seg.tbl ("<table></table>".toList) ∈ segmentsOf ("a<table></table>b".toList)
    ∧ (tableOpenTok.isPrefixOf (lowerL ("<table></table>".toList)) = true
        ∧ tableCloseTok.isSuffixOf (lowerL ("<table></table>".toList)) = true) :=
  ⟨by decide,
    (c1_frame ("a<table></table>b".toList)).2.1 ("<table></table>".toList) (by decide)⟩

/-- C2: an input with no case-insensitive occurrence of `<table` is returned
unchanged, and the empty (or `None`, which is equally falsy) input yields
the empty output. -/
theorem c2_no_table :
    (∀ html : Str, (∀ i, tableOpenTok.isPrefixOf ((lowerL html).drop i) = false) →
      replace_tables_in_place html = Except.ok html)
    ∧ replace_tables_in_place [] = Except.ok [] := by
  constructor
  · intro html h
    have hnone : findIn (lowerL html) tableOpenTok = none := by
      cases hfi : findIn (lowerL html) tableOpenTok with
      | none => rfl
      | some j =>
        have hp := findIn_prefix hfi
        rw [h j] at hp
        cases hp
    have hff : findFrom (lowerL html) tableOpenTok 0 = none := by
      simp [findFrom, hnone]
    have hsegs : segmentsOf html = [Seg.plain html] := by
      simp [segmentsOf, segmentsFrom, hff]
    cases html with
    | nil => rfl
    | cons c rest =>
      simp only [replace_tables_in_place, if_neg (List.cons_ne_nil c rest), hsegs]
      rw [show (([Seg.plain (c :: rest)] : List Seg).mapM segOutE) =
        Except.ok [c :: rest] from rfl]
      simp [Except.map, catL_cons, catL_nil]
  · rfl

/-- C2 witness: a concrete table-free input passes through unchanged. -/
theorem c2_witness :
    replace_tables_in_place ("hello".toList) = Except.ok ("hello".toList) :=
  c2_no_table.1 ("hello".toList) (findIn_none (by decide))

/-- C3: the end-to-end example of the specification: the rowspan/colspan
table converts to the Markdown table with flattened header row
`Name | Info > Age | Info > City` and body row `Tom | 30 | NY`. -/
theorem c3_example :
    replace_tables_in_place ("<table><tr><th rowspan=\"2\">Name</th><th colspan=\"2\">Info</th></tr><tr><th>Age</th><th>City</th></tr><tr><td>Tom</td><td>30</td><td>NY</td></tr></table>".toList) =
      Except.ok ("| Name | Info > Age | Info > City |\n| :--- | :--- | :--- |\n| Tom | 30 | NY |".toList) := by
  rfl

/-- C4: the flattener's per-column step skips a propagated value identical
to the column's previously merged segment, so a value repeated in the next
layer (the rowspan case) contributes its text exactly once — never
`X > X`; the per-column step is exactly how the real layer fold acts on
each column (`flatten_pointwise`); and a concrete rowspan-2 header renders
`X` once. -/
theorem c4_rowspan_dedup :
    (∀ (hp : Str × Option Str) (s : Str), hp.2 = some s → joinStep hp s = hp)
    ∧ (∀ (hp : Str × Option Str) (s : Str), s ≠ [] →
        joinStep (joinStep hp s) s = joinStep hp s)
    ∧ (∀ (layers : List (List Str)) (st : List (Str × Option Str)) (c : Nat),
        c < st.length → (∀ l ∈ layers, st.length ≤ l.length) →
        (layers.foldl layerStep st).getD c dCol =
          layers.foldl (fun a l => joinStep a ((propagate [] l).getD c [])) (st.getD c dCol))
    ∧ tableHtmlToMarkdown ("<table><tr><th rowspan=\"2\">X</th><th>A</th></tr><tr><th>B</th></tr></table>".toList) =
        Except.ok ("| X | A > B |\n| :--- | :--- |".toList) := by
  refine ⟨?_, ?_, flatten_pointwise, by rfl⟩
  · intro hp s h
    exact joinStep_dup h
  · intro hp s hs
    exact joinStep_dup (joinStep_snd hs)

/-- C4 witness: the duplicate-skip applied at a concrete nonblank value. -/
theorem c4_witness :
    ("X".toList ≠ []) ∧
      joinStep (joinStep dCol ("X".toList)) ("X".toList) = joinStep dCol ("X".toList) :=
  ⟨by decide, c4_rowspan_dedup.2.1 dCol ("X".toList) (by decide)⟩

/-- C5: on an input whose last opening `<table` has no `>`, the claim says
the remainder is copied through unchanged and nothing is ever raised; but
when an earlier complete table in the same document hits the unguarded
`self._cur_row.append` (here `</tr>` before `</td>`), the conversion raises
instead of returning.  The conjuncts show the input is in the claim's scope
(an opening tag at index 34 with no following `>`), and that the code
raises on it. -/
theorem c5_crash_evidence :
    replace_tables_in_place ("<table><tr><td>x</tr></td></table><table".toList) =
      Except.error ()
    ∧ findFrom (lowerL ("<table><tr><td>x</tr></td></table><table".toList)) tableOpenTok 34 =
        some 34
    ∧ findFrom (lowerL ("<table><tr><td>x</tr></td></table><table".toList)) gtTok 34 = none := by
  refine ⟨by rfl, by decide, by decide⟩

/-- C6, counterexample: `<table></table>` parses to a recognized table with
zero rows, yet the conversion does not return the original markup — it
renders the degenerate Markdown table `|  |\n|  |`. -/
theorem c6_zero_rows_converted :
    parseTables (tokenizeAll ("<table></table>".toList)) = Except.ok [[]]
    ∧ tableHtmlToMarkdown ("<table></table>".toList) = Except.ok ("|  |\n|  |".toList)
    ∧ ("|  |\n|  |".toList : Str) ≠ ("<table></table>".toList) := by
  refine ⟨by rfl, by rfl, by decide⟩

/-- C6 (amended): the original table markup is returned unchanged exactly
when the parser records no table at all; this is the per-table fail-soft
branch of `table_html_to_markdown`. -/
theorem c6_passthrough_amended (s : Str)
    (h : parseTables (tokenizeAll s) = Except.ok []) :
    tableHtmlToMarkdown s = Except.ok s := by
  simp [tableHtmlToMarkdown, h]

/-- C6 witness: a region whose parse records no table is returned
verbatim. -/
theorem c6_witness :
    parseTables (tokenizeAll ("<tablex></table>".toList)) = Except.ok []
    ∧ tableHtmlToMarkdown ("<tablex></table>".toList) =
        Except.ok ("<tablex></table>".toList) :=
  ⟨by rfl, c6_passthrough_amended ("<tablex></table>".toList) (by rfl)⟩

/-- C7: `rowspan`/`colspan` attribute values are parsed with Python `int`;
a missing value (`none`, including a bare attribute) or an unparseable
value leaves the default 1; a parseable value is stored; and the parse is a
total function — it never raises for any attribute string. -/
theorem c7_span_parsing (rv cv : Option Str) :
    (startCell ("td".toList) [(("rowspan".toList), rv), (("colspan".toList), cv)]).rowspan =
        ((pyIntOpt rv).getD 1)
    ∧ (startCell ("td".toList) [(("rowspan".toList), rv), (("colspan".toList), cv)]).colspan =
        ((pyIntOpt cv).getD 1)
    ∧ (startCell ("td".toList) []).rowspan = 1
    ∧ (startCell ("td".toList) []).colspan = 1
    ∧ pyIntOpt (some ("abc".toList)) = none
    ∧ pyIntOpt none = none := by
  refine ⟨?_, ?_, by rfl, by rfl, by rfl, by rfl⟩
  · simp only [startCell, List.foldl_cons, List.foldl_nil, cellAttrStep_rowspan_eq,
      cellAttrStep_colspan_eq]
    cases hr : pyIntOpt rv <;> cases hc : pyIntOpt cv <;> rfl
  · simp only [startCell, List.foldl_cons, List.foldl_nil, cellAttrStep_rowspan_eq,
      cellAttrStep_colspan_eq]
    cases hr : pyIntOpt rv <;> cases hc : pyIntOpt cv <;> rfl

/-- C8: the expanded grid is rectangular — after padding, every row of
`buildGrid` has length `maxCols`, and `maxCols` is the maximum width seen
among the unpadded expanded rows. -/
theorem c8_rectangular (t : List (List Cell)) :
    (∀ row ∈ (buildGrid t).1, row.length = (buildGrid t).2)
    ∧ (buildGrid t).2 = ((buildGridCore t).1.map List.length).foldl Nat.max 0 := by
  constructor
  · intro row hrow
    have hg : (buildGrid t).1 = (buildRows [] 0 t).map (padRow (maxColsOf (buildRows [] 0 t))) :=
      rfl
    have hm : (buildGrid t).2 = maxColsOf (buildRows [] 0 t) := rfl
    rw [hg] at hrow
    rcases List.mem_map.mp hrow with ⟨v, hv, rfl⟩
    rw [hm]
    exact padRow_length (le_maxColsOf hv)
  · rw [List.foldl_map]
    rfl

/-- C8 witness: a concrete one-row table with `colspan=2` expands to a
rectangular grid of width 2. -/
theorem c8_witness :
    ["a".toList, ([] : Str)] ∈
        (buildGrid [[{ text := "a".toList, rowspan := 1, colspan := 2, is_header := false }]]).1
    ∧ (["a".toList, ([] : Str)] : List Str).length =
        (buildGrid [[{ text := "a".toList, rowspan := 1, colspan := 2, is_header := false }]]).2 :=
  ⟨by decide, (c8_rectangular _).1 _ (by decide)⟩

/-- C9: the locator matches the raw substring `<table` with no tag-name
boundary check: it fires at index 0 of `<tablex…` for every continuation;
the whole `<tablex …>…</table>` region is segmented as a table (not as
plain text) and handed to the converter; and on a region that contains a
real nested `<table>` the attempted conversion visibly rewrites the region
(dropping the `<tablex>` prefix) instead of passing it through. -/
theorem c9_tag_prefix_match :
    (∀ s : Str, findFrom (lowerL (("<tablex".toList) ++ s)) tableOpenTok 0 = some 0)
    ∧ segmentsOf ("<tablex>x</table>".toList) =
        [Seg.plain [], Seg.tbl ("<tablex>x</table>".toList), Seg.plain []]
    ∧ replace_tables_in_place ("<tablex><table><tr><td>A</td></tr></table>".toList) =
        Except.ok ("| col_1 |\n| :--- |\n| A |".toList) := by
  refine ⟨?_, by rfl, by rfl⟩
  · intro s
    rfl

/-- C10: the duplicate check is purely textual and the remembered previous
segment survives layers whose propagated value is blank: a nonblank value
`s`, followed by any run of blank propagated values and then `s` again,
updates the column state exactly as the single first occurrence does (the
text is appended only once); blank values change nothing; and a concrete
table with two distinct equal-text header cells separated by a blank header
layer renders the text once. -/
theorem c10_textual_dedup :
    (∀ (hp : Str × Option Str) (s : Str) (bs : List Str), s ≠ [] → (∀ b ∈ bs, b = []) →
      (s :: (bs ++ [s])).foldl joinStep hp = joinStep hp s)
    ∧ (∀ hp : Str × Option Str, joinStep hp [] = hp)
    ∧ tableHtmlToMarkdown ("<table><tr><th>A</th></tr><tr><th></th></tr><tr><th>A</th></tr></table>".toList) =
        Except.ok ("| A |\n| :--- |".toList) := by
  refine ⟨?_, joinStep_blank, by rfl⟩
  · intro hp s bs hs hbs
    simp only [List.foldl_cons]
    exact foldl_joinStep_absorb bs (joinStep hp s) (joinStep_snd hs) hbs

/-- C10 witness: a concrete repeated header text with an intervening blank
layer is merged once. -/
theorem c10_witness :
    ("A".toList ≠ []) ∧ (∀ b ∈ [([] : Str)], b = ([] : Str))
    ∧ (("A".toList) :: ([([] : Str)] ++ ["A".toList])).foldl joinStep dCol =
        joinStep dCol ("A".toList) :=
  ⟨by decide, by decide, c10_textual_dedup.1 dCol ("A".toList) [([] : Str)] (by decide) (by decide)⟩

/-- C7 witness: the span-parsing equations applied at concrete attribute
values (`rowspan="2"`, `colspan="abc"`). -/
theorem c7_witness :
    (startCell ("td".toList)
        [(("rowspan".toList), some ("2".toList)), (("colspan".toList), some ("abc".toList))]).rowspan =
      ((pyIntOpt (some ("2".toList))).getD 1) :=
  (c7_span_parsing (some ("2".toList)) (some ("abc".toList))).1

/-- C9 witness: the boundary-free match applied at a concrete `<tablex` tag
with attributes. -/
theorem c9_witness :
    findFrom (lowerL (("<tablex".toList) ++ (" id=3>x</table>".toList))) tableOpenTok 0 = some 0 :=
  c9_tag_prefix_match.1 (" id=3>x</table>".toList)
